import Mathlib

/-!
Verification of the silence-editing core of `edit_video_ffmpeg_only.py`.

Times are embedded as exact rationals (`ℚ`); the Python floats appear here
as the corresponding rational literals (the merge epsilon `0.002` is `2/1000`).
Lists of `(start, end)` pairs embed the Python lists of two-element lists.
-/

/-- Embeds lines 73-75 of `build_keep_ranges_gentle`:
`final_len = max(L*reduce_ratio, min_final_s)` followed by
`if max_final_s is not None and max_final_s >= 0: final_len = min(final_len, max_final_s)`. -/
def final_len_of (reduce_ratio min_final_s : ℚ) (max_final_s : Option ℚ) (L : ℚ) : ℚ :=
  let f := max (L * reduce_ratio) min_final_s
  match max_final_s with
  | some m => if 0 ≤ m then min f m else f
  | none => f

/-- Embeds the per-silence body of the loop in `build_keep_ranges_gentle`
(lines 69-85): short silences are kept verbatim, long ones are shrunk into a
head fragment and a tail fragment, collapsed to one centered range when the
fragments would touch or overlap (`head_end >= tail_start`). -/
def keepForSilence (lt rr minf : ℚ) (maxf : Option ℚ) (htr : ℚ) (s e : ℚ) :
    List (ℚ × ℚ) :=
  let L := max 0 (e - s)
  if L < lt then [(s, e)]
  else
    let fl := final_len_of rr minf maxf L
    let head_keep := fl * htr
    let tail_keep := fl - head_keep
    let head_end := s + head_keep
    let tail_start := e - tail_keep
    if tail_start ≤ head_end then
      let mid := s + (L - fl) / 2
      [(mid, mid + fl)]
    else
      [(s, head_end), (tail_start, e)]

/-- Embeds the main loop of `build_keep_ranges_gentle` (lines 64-88):
the moving cursor, the spoken segment before each silence, the per-silence
emission, and the final segment from the cursor to `total_s`. -/
def rawKeep (lt rr minf : ℚ) (maxf : Option ℚ) (htr total : ℚ) :
    ℚ → List (ℚ × ℚ) → List (ℚ × ℚ)
  | c, [] => if c < total then [(c, total)] else []
  | c, (s, e) :: rest =>
      (if c < s then [(c, s)] else []) ++
        (keepForSilence lt rr minf maxf htr s e ++
          rawKeep lt rr minf maxf htr total e rest)

/-- The merge epsilon `0.002` of line 96. -/
def eps : ℚ := 2 / 1000

/-- Embeds the merge pass of lines 90-99: `cur` is `merged[-1]`; a segment
whose start is within `eps` of `cur`'s end extends `cur`'s end to the larger
of the two ends, otherwise `cur` is emitted and the segment starts a new
current range. -/
def mergeAux : ℚ × ℚ → List (ℚ × ℚ) → List (ℚ × ℚ)
  | cur, [] => [cur]
  | cur, b :: rest =>
      if b.1 ≤ cur.2 + eps then mergeAux (cur.1, max cur.2 b.2) rest
      else cur :: mergeAux b rest

/-- The merge pass on the whole emitted list (lines 90-99). -/
def mergeRanges : List (ℚ × ℚ) → List (ℚ × ℚ)
  | [] => []
  | a :: rest => mergeAux a rest

/-- Embeds the clamp pass of lines 100-102:
`seg[0] = max(0.0, seg[0]); seg[1] = max(seg[0], seg[1])`. -/
def clampSeg (p : ℚ × ℚ) : ℚ × ℚ :=
  (max 0 p.1, max (max 0 p.1) p.2)

/-- Embeds `build_keep_ranges_gentle` (lines 58-103): raw emission, merge
pass, clamp pass. -/
def build_keep_ranges_gentle (total_s : ℚ) (silences : List (ℚ × ℚ))
    (long_threshold_s reduce_ratio min_final_s : ℚ) (max_final_s : Option ℚ)
    (head_tail_ratio : ℚ) : List (ℚ × ℚ) :=
  (mergeRanges (rawKeep long_threshold_s reduce_ratio min_final_s max_final_s
      head_tail_ratio total_s 0 silences)).map clampSeg

/-- Embeds the cursor-pairing loop of `detect_silences_ffmpeg` (lines 40-49):
walk the start markers and end markers with independent cursors; a stale end
(`ends[j] <= starts[i]`) advances only the end cursor; otherwise the pair is
accepted and both cursors advance; the loop stops when either list is
exhausted. -/
def pairSilences : List ℚ → List ℚ → List (ℚ × ℚ)
  | [], _ => []
  | _ :: _, [] => []
  | s :: ss, e :: es =>
      if e ≤ s then pairSilences (s :: ss) es
      else (s, e) :: pairSilences ss es

/-- One operation record of `build_filter_complex`: a per-range trim on the
primary (video) or secondary (audio) track, the concatenate step, or the
final audio filter-chain application. -/
inductive FilterOp where
  | trim (primary : Bool) (idx : Nat) (s e : ℚ)
  | concat (labels : List Nat)
  | chainApply (pre : Option String) (chain : String)

/-- The per-range trim pairs of the loop in `build_filter_complex`
(lines 108-113): one primary-track and one secondary-track trim per keep
range, labelled by index, in range order. -/
def trimOps : Nat → List (ℚ × ℚ) → List FilterOp
  | _, [] => []
  | i, (s, e) :: rest =>
      FilterOp.trim true i s e :: FilterOp.trim false i s e :: trimOps (i + 1) rest

/-- Embeds `build_filter_complex` (lines 105-123) as the ordered operation
sequence it describes: the trim pairs, one concatenate consuming the labels
in range order, and one final filter-chain application; an empty range list
raises `RuntimeError("No ranges to keep.")`, embedded as the error case. -/
def build_filter_complex (keep_ranges : List (ℚ × ℚ)) (audio_chain : String)
    (preset_audio_denoise : Option String) : Except String (List FilterOp) :=
  if keep_ranges = [] then Except.error ("No ranges to keep.")
  else Except.ok (trimOps 0 keep_ranges ++
    [FilterOp.concat (List.range keep_ranges.length),
     FilterOp.chainApply preset_audio_denoise audio_chain])

/-- Recognizes a trim operation. -/
def isTrim : FilterOp → Bool
  | FilterOp.trim _ _ _ _ => true
  | _ => false

/-- Recognizes the concatenate operation. -/
def isConcat : FilterOp → Bool
  | FilterOp.concat _ => true
  | _ => false

/-- Recognizes the final filter-chain application. -/
def isChainApply : FilterOp → Bool
  | FilterOp.chainApply _ _ => true
  | _ => false

/-- C1: on the spec's worked example (`total_duration = 10`, one silence
`(2,5)`, default parameters) the builder computes `final_len = 1.4`, the
head range `[2, 2.7]` and tail range `[4.3, 5]`, and after the merge pass
returns exactly `[[0, 2.7], [4.3, 10]]`. -/
theorem C1_worked_example :
    final_len_of (6/10) (1/2) (some (14/10)) 3 = 7/5 ∧
    keepForSilence 1 (6/10) (1/2) (some (14/10)) (1/2) 2 5 =
      [(2, 27/10), (43/10, 5)] ∧
    build_keep_ranges_gentle 10 [(2, 5)] 1 (6/10) (1/2) (some (14/10)) (1/2) =
      [(0, 27/10), (43/10, 10)] := by
  refine ⟨by norm_num [final_len_of], ?_, ?_⟩
  · norm_num [keepForSilence, final_len_of, max_def, min_def]
  · norm_num [build_keep_ranges_gentle, rawKeep, keepForSilence, final_len_of,
      mergeRanges, mergeAux, clampSeg, eps, max_def, min_def]

/-- C5: whenever a silence is long (`lt ≤ e - s`) and the head and tail
fragments would touch or overlap (`head_end ≥ tail_start`), the builder
emits one single range of length `final_len` centered in the silence,
`[s + (L - final_len)/2, s + (L - final_len)/2 + final_len]`, instead of two
fragments. -/
theorem C5_centered_collapse (lt rr minf htr s e : ℚ) (maxf : Option ℚ)
    (hse : s ≤ e) (hlong : lt ≤ e - s)
    (hcol : e - (final_len_of rr minf maxf (e - s) -
        final_len_of rr minf maxf (e - s) * htr) ≤
      s + final_len_of rr minf maxf (e - s) * htr) :
    keepForSilence lt rr minf maxf htr s e =
      [(s + ((e - s) - final_len_of rr minf maxf (e - s)) / 2,
        s + ((e - s) - final_len_of rr minf maxf (e - s)) / 2 +
          final_len_of rr minf maxf (e - s))] := by
  have hL : max 0 (e - s) = e - s := max_eq_right (by linarith)
  simp only [keepForSilence, hL]
  rw [if_neg (not_lt.mpr hlong), if_pos hcol]

/-- C5 witness: the spec's concrete collapse case `L = 1.2`,
`long_threshold = 1`, `reduce_ratio = 1`, `min_final = 1`,
`head_tail_ratio = 0.5` produces the single centered range `[0, 1.2]`. -/
theorem C5_centered_collapse_witness :
    keepForSilence 1 1 1 none (1/2) 0 (6/5) = [(0, 6/5)] := by
  have h := C5_centered_collapse 1 1 1 (1/2) 0 (6/5) none (by norm_num)
    (by norm_num) (by norm_num [final_len_of, max_def])
  rw [h]
  norm_num [final_len_of, max_def]

/-- C9: when `max_final_s < min_final_s` (with `max_final_s ≥ 0`) the
configuration is not rejected: `final_len` is resolved deterministically by
applying the min clamp before the max clamp,
`final_len = min (max (L * reduce_ratio) min_final_s) max_final_s =
max_final_s`. -/
theorem C9_min_clamp_before_max (rr minf m L : ℚ) (hm : 0 ≤ m)
    (hlt : m < minf) :
    final_len_of rr minf (some m) L = min (max (L * rr) minf) m ∧
    final_len_of rr minf (some m) L = m := by
  have h1 : final_len_of rr minf (some m) L = min (max (L * rr) minf) m := by
    simp [final_len_of, hm]
  refine ⟨h1, h1.trans (min_eq_right ?_)⟩
  exact le_trans hlt.le (le_max_right _ _)

/-- C9 witness: `reduce_ratio = 1`, `min_final = 2`, `max_final = 1`,
`L = 3` resolves to `final_len = 1` with no error. -/
theorem C9_min_clamp_before_max_witness :
    final_len_of 1 2 (some 1) 3 = 1 :=
  (C9_min_clamp_before_max 1 2 1 3 (by norm_num) (by norm_num)).2

/-- C10: `build_keep_ranges_gentle` is total — in particular the clamp pass
guarantees `0 ≤ a ≤ b` for every returned range on every input — and a
silence with `end ≤ start` is treated as length `max 0 (end - start) = 0`
and (for a positive long threshold) emitted verbatim. -/
theorem C10_total_and_clamped (total lt rr minf htr : ℚ) (maxf : Option ℚ)
    (sil : List (ℚ × ℚ)) :
    (∀ p ∈ build_keep_ranges_gentle total sil lt rr minf maxf htr,
        0 ≤ p.1 ∧ p.1 ≤ p.2) ∧
    (∀ s e : ℚ, e ≤ s → 0 < lt →
        keepForSilence lt rr minf maxf htr s e = [(s, e)]) := by
  constructor
  · intro p hp
    simp only [build_keep_ranges_gentle] at hp
    rcases List.mem_map.mp hp with ⟨q, _, rfl⟩
    exact ⟨le_max_left 0 q.1, le_max_left _ _⟩
  · intro s e hes hlt
    have hL : max 0 (e - s) = 0 := max_eq_left (by linarith)
    simp only [keepForSilence, hL]
    rw [if_pos hlt]

/-- C10 witness: the degenerate silence `(1, 0)` is emitted verbatim. -/
theorem C10_total_and_clamped_witness :
    keepForSilence 1 (6/10) (1/2) (some (14/10)) (1/2) 1 0 = [(1, 0)] :=
  (C10_total_and_clamped 10 1 (6/10) (1/2) (1/2) (some (14/10)) []).2 1 0
    (by norm_num) (by norm_num)

/-- C8 counterexample: with `total_duration = -1` the call does not fail —
it returns the empty list, so no `NonPositiveDurationError` is surfaced. -/
theorem C8_counterexample :
    build_keep_ranges_gentle (-1) [] 1 (6/10) (1/2) (some (14/10)) (1/2) = [] := by
  norm_num [build_keep_ranges_gentle, rawKeep, mergeRanges]

/-- C8 amended: for `total_duration ≤ 0` and no silences,
`build_keep_ranges_gentle` returns normally with the empty (degenerate)
list; the code raises no error for a non-positive duration. -/
theorem C8_nonpositive_duration_returns (total lt rr minf htr : ℚ)
    (maxf : Option ℚ) (htot : total ≤ 0) :
    build_keep_ranges_gentle total [] lt rr minf maxf htr = [] := by
  simp only [build_keep_ranges_gentle, rawKeep]
  rw [if_neg (by linarith : ¬ (0:ℚ) < total)]
  rfl

/-- C8 witness: `total_duration = 0` returns the empty list. -/
theorem C8_nonpositive_duration_returns_witness :
    build_keep_ranges_gentle 0 [] 1 (6/10) (1/2) (some (14/10)) (1/2) = [] :=
  C8_nonpositive_duration_returns 0 1 (6/10) (1/2) (1/2) (some (14/10)) le_rfl

/-- C3 counterexample: `total_duration = 3` with the silence `(2, 5)`
(extending past the end of the timeline) yields a keep range ending at `5`,
which exceeds `total_duration = 3`. -/
theorem C3_counterexample :
    build_keep_ranges_gentle 3 [(2, 5)] 1 (6/10) (1/2) (some (14/10)) (1/2) =
      [(0, 27/10), (43/10, 5)] ∧ (3 : ℚ) < 5 := by
  constructor
  · norm_num [build_keep_ranges_gentle, rawKeep, keepForSilence, final_len_of,
      mergeRanges, mergeAux, clampSeg, eps, max_def, min_def]
  · norm_num

/-- C2 counterexample: with `head_tail_ratio = 2` (outside the documented
domain `[0,1]`) the returned list `[(0,2), (11,11), (10.6,10.6)]` is not
sorted ascending by start and its last two ranges are out of order, so the
claim fails for arbitrary policy parameter sets. -/
theorem C2_counterexample :
    build_keep_ranges_gentle (21/2) [(0, 10), (10, 21/2)] (1/2) (1/10) (1/10)
        none 2 = [(0, 2), (11, 11), (53/5, 53/5)] ∧ (53/5 : ℚ) < 11 := by
  constructor
  · norm_num [build_keep_ranges_gentle, rawKeep, keepForSilence, final_len_of,
      mergeRanges, mergeAux, clampSeg, eps, max_def, min_def]
  · norm_num

/-- C6 counterexample: the short silence `(2, 2.5)` (length `0.5 < 1`) is
absorbed by the merge pass — the returned list is `[(0, 10)]`, which does
not contain `(2, 2.5)` as an element. -/
theorem C6_counterexample :
    build_keep_ranges_gentle 10 [(2, 5/2)] 1 (6/10) (1/2) (some (14/10)) (1/2) =
      [(0, 10)] ∧ (0 : ℚ) < 2 := by
  constructor
  · norm_num [build_keep_ranges_gentle, rawKeep, keepForSilence, final_len_of,
      mergeRanges, mergeAux, clampSeg, eps, max_def, min_def]
  · norm_num

/-- Every accepted pair takes its start from the start list and its end from
the end list. -/
lemma pairSilences_mem (E : List ℚ) : ∀ (S : List ℚ) (p : ℚ × ℚ),
    p ∈ pairSilences S E → p.1 ∈ S ∧ p.2 ∈ E := by
  induction E with
  | nil =>
    intro S p hp
    cases S <;> simp [pairSilences] at hp
  | cons e es ih =>
    intro S p hp
    cases S with
    | nil => simp [pairSilences] at hp
    | cons s ss =>
      simp only [pairSilences] at hp
      by_cases h : e ≤ s
      · rw [if_pos h] at hp
        obtain ⟨h1, h2⟩ := ih (s :: ss) p hp
        exact ⟨h1, List.mem_cons_of_mem _ h2⟩
      · rw [if_neg h] at hp
        rcases List.mem_cons.mp hp with rfl | hp'
        · exact ⟨List.mem_cons_self _ _, List.mem_cons_self _ _⟩
        · obtain ⟨h1, h2⟩ := ih ss p hp'
          exact ⟨List.mem_cons_of_mem _ h1, List.mem_cons_of_mem _ h2⟩

/-- C4: the pairing loop skips stale end markers (`E[j] ≤ S[i]` advances `j`
only), otherwise accepts `(S[i], E[j])` and advances both cursors; it stops
when either sequence is exhausted (dropping an unmatched trailing start);
every accepted interval has `start < end` and for ascending inputs the
result is ordered ascending by start. -/
theorem C4_pairing_loop (S E : List ℚ) (hS : List.Pairwise (· ≤ ·) S)
    (hE : List.Pairwise (· ≤ ·) E) :
    (∀ (s : ℚ) (ss : List ℚ) (e : ℚ) (es : List ℚ), e ≤ s →
        pairSilences (s :: ss) (e :: es) = pairSilences (s :: ss) es) ∧
    (∀ (s : ℚ) (ss : List ℚ) (e : ℚ) (es : List ℚ), ¬ e ≤ s →
        pairSilences (s :: ss) (e :: es) = (s, e) :: pairSilences ss es) ∧
    pairSilences S [] = [] ∧
    pairSilences [] E = [] ∧
    (∀ p ∈ pairSilences S E, p.1 < p.2) ∧
    List.Pairwise (fun p q : ℚ × ℚ => p.1 ≤ q.1) (pairSilences S E) := by
  refine ⟨?_, ?_, ?_, ?_, ?_, ?_⟩
  · intro s ss e es h
    simp only [pairSilences]
    rw [if_pos h]
  · intro s ss e es h
    simp only [pairSilences]
    rw [if_neg h]
  · cases S <;> rfl
  · cases E <;> rfl
  · clear hS hE
    induction E generalizing S with
    | nil => cases S <;> simp [pairSilences]
    | cons e es ih =>
      cases S with
      | nil => simp [pairSilences]
      | cons s ss =>
        intro p hp
        simp only [pairSilences] at hp
        by_cases h : e ≤ s
        · rw [if_pos h] at hp
          exact ih (s :: ss) p hp
        · rw [if_neg h] at hp
          rcases List.mem_cons.mp hp with rfl | hp'
          · exact not_le.mp h
          · exact ih ss p hp'
  · clear hE
    induction E generalizing S with
    | nil => cases S <;> simp [pairSilences]
    | cons e es ih =>
      cases S with
      | nil => simp [pairSilences]
      | cons s ss =>
        simp only [pairSilences]
        by_cases h : e ≤ s
        · rw [if_pos h]
          exact ih (s :: ss) hS
        · rw [if_neg h]
          refine List.Pairwise.cons ?_ (ih ss (List.Pairwise.of_cons hS))
          intro q hq
          have h1 := (pairSilences_mem es ss q hq).1
          exact (List.pairwise_cons.mp hS).1 q.1 h1

/-- C4 witness: on the ascending marker lists `S = [1,3]`, `E = [2,4]` the
loop with an exhausted end list returns no intervals. -/
theorem C4_pairing_loop_witness :
    pairSilences [(1:ℚ), 3] [] = [] :=
  (C4_pairing_loop [1, 3] [2, 4] (by norm_num [List.pairwise_cons])
    (by norm_num [List.pairwise_cons])).2.2.1

/-- The trim block contributes exactly two trim operations per keep range. -/
lemma trimOps_countP_isTrim : ∀ (keep : List (ℚ × ℚ)) (i : Nat),
    (trimOps i keep).countP isTrim = 2 * keep.length := by
  intro keep
  induction keep with
  | nil => intro i; rfl
  | cons p rest ih =>
    intro i
    obtain ⟨s, e⟩ := p
    simp only [trimOps, List.countP_cons, ih (i + 1), isTrim, if_true,
      List.length_cons]
    ring

/-- The trim block contains no concatenate operation. -/
lemma trimOps_countP_isConcat : ∀ (keep : List (ℚ × ℚ)) (i : Nat),
    (trimOps i keep).countP isConcat = 0 := by
  intro keep
  induction keep with
  | nil => intro i; rfl
  | cons p rest ih =>
    intro i
    obtain ⟨s, e⟩ := p
    simp only [trimOps, List.countP_cons, ih (i + 1), isConcat]
    rfl

/-- The trim block contains no filter-chain application. -/
lemma trimOps_countP_isChainApply : ∀ (keep : List (ℚ × ℚ)) (i : Nat),
    (trimOps i keep).countP isChainApply = 0 := by
  intro keep
  induction keep with
  | nil => intro i; rfl
  | cons p rest ih =>
    intro i
    obtain ⟨s, e⟩ := p
    simp only [trimOps, List.countP_cons, ih (i + 1), isChainApply]
    rfl

/-- C7: `build_filter_complex` fails exactly on the empty keep-range list
(with the "No ranges to keep." error); on `n` ranges it returns the trim
pairs in range order followed by one concatenate consuming the labels in
range order and one final filter-chain application — exactly `2n` trim
operations, `1` concatenate and `1` filter-chain-apply. -/
theorem C7_filter_graph (c : String) (pre : Option String) :
    build_filter_complex [] c pre = Except.error ("No ranges to keep.") ∧
    (∀ keep : List (ℚ × ℚ), keep ≠ [] →
      build_filter_complex keep c pre =
        Except.ok (trimOps 0 keep ++
          [FilterOp.concat (List.range keep.length),
           FilterOp.chainApply pre c]) ∧
      (trimOps 0 keep ++
          [FilterOp.concat (List.range keep.length),
           FilterOp.chainApply pre c]).countP isTrim = 2 * keep.length ∧
      (trimOps 0 keep ++
          [FilterOp.concat (List.range keep.length),
           FilterOp.chainApply pre c]).countP isConcat = 1 ∧
      (trimOps 0 keep ++
          [FilterOp.concat (List.range keep.length),
           FilterOp.chainApply pre c]).countP isChainApply = 1) := by
  constructor
  · simp [build_filter_complex]
  · intro keep hkeep
    refine ⟨?_, ?_, ?_, ?_⟩
    · simp only [build_filter_complex]
      rw [if_neg hkeep]
    · simp [List.countP_append, trimOps_countP_isTrim, List.countP_cons,
        isTrim]
    · simp [List.countP_append, trimOps_countP_isConcat, List.countP_cons,
        isConcat]
    · simp [List.countP_append, trimOps_countP_isChainApply,
        List.countP_cons, isChainApply]

/-- C7 witness: a single keep range yields the two trims, the concatenate
and the chain application. -/
theorem C7_filter_graph_witness :
    build_filter_complex [((0:ℚ), 1)] ("c") none =
      Except.ok (trimOps 0 [((0:ℚ), 1)] ++
        [FilterOp.concat (List.range 1), FilterOp.chainApply none ("c")]) := by
  have h := ((C7_filter_graph ("c") none).2 [((0:ℚ), 1)] (by simp)).1
  simpa using h

/-- The merge epsilon is positive. -/
lemma eps_pos : 0 < eps := by norm_num [eps]

/-- With a positive reduce ratio the resolved final length is nonnegative. -/
lemma final_len_nonneg (rr minf : ℚ) (maxf : Option ℚ) (L : ℚ)
    (hrr : 0 ≤ rr) (hL : 0 ≤ L) : 0 ≤ final_len_of rr minf maxf L := by
  have hf : 0 ≤ max (L * rr) minf :=
    le_trans (mul_nonneg hL hrr) (le_max_left _ _)
  cases maxf with
  | none => simpa [final_len_of] using hf
  | some m =>
    simp only [final_len_of]
    by_cases hm : 0 ≤ m
    · rw [if_pos hm]
      exact le_min hf hm
    · rw [if_neg hm]
      exact hf

/-- Under in-range parameters, every range a single valid silence emits is
well-formed (`start ≤ end`) and ends at a nonnegative time. -/
lemma keepForSilence_valid (lt rr minf htr s e : ℚ) (maxf : Option ℚ)
    (hrr : 0 < rr) (hh0 : 0 ≤ htr) (hh1 : htr ≤ 1)
    (hs : 0 ≤ s) (hse : s < e) :
    ∀ p ∈ keepForSilence lt rr minf maxf htr s e, p.1 ≤ p.2 ∧ 0 ≤ p.2 := by
  intro p hp
  have hL : max 0 (e - s) = e - s := max_eq_right (by linarith)
  simp only [keepForSilence, hL] at hp
  set fl := final_len_of rr minf maxf (e - s) with hfl
  have hfl0 : 0 ≤ fl :=
    final_len_nonneg rr minf maxf (e - s) hrr.le (by linarith)
  by_cases hshort : e - s < lt
  · rw [if_pos hshort] at hp
    simp only [List.mem_singleton] at hp
    subst hp
    exact ⟨by simp; linarith, by simp; linarith⟩
  · rw [if_neg hshort] at hp
    by_cases hcol : e - (fl - fl * htr) ≤ s + fl * htr
    · rw [if_pos hcol] at hp
      simp only [List.mem_singleton] at hp
      subst hp
      have hLfl : e - s ≤ fl := by linarith
      exact ⟨by simp; linarith, by simp; linarith⟩
    · rw [if_neg hcol] at hp
      have hhk : 0 ≤ fl * htr := mul_nonneg hfl0 hh0
      have htk : fl * htr ≤ fl := by
        calc fl * htr ≤ fl * 1 := mul_le_mul_of_nonneg_left hh1 hfl0
          _ = fl := mul_one fl
      rcases List.mem_cons.mp hp with rfl | hp'
      · exact ⟨by simp; linarith, by simp; linarith⟩
      · simp only [List.mem_singleton] at hp'
        subst hp'
        exact ⟨by simp; linarith, by simp; linarith⟩

/-- Under in-range parameters and valid nonnegative silences, every raw
emitted range is well-formed and ends at a nonnegative time. -/
lemma raw_valid (lt rr minf htr total : ℚ) (maxf : Option ℚ)
    (hrr : 0 < rr) (hh0 : 0 ≤ htr) (hh1 : htr ≤ 1) :
    ∀ (sil : List (ℚ × ℚ)) (c : ℚ), 0 ≤ c →
      (∀ p ∈ sil, 0 ≤ p.1 ∧ p.1 < p.2) →
      ∀ p ∈ rawKeep lt rr minf maxf htr total c sil, p.1 ≤ p.2 ∧ 0 ≤ p.2 := by
  intro sil
  induction sil with
  | nil =>
    intro c hc _ p hp
    simp only [rawKeep] at hp
    by_cases h : c < total
    · rw [if_pos h] at hp
      simp only [List.mem_singleton] at hp
      subst hp
      exact ⟨by simp; linarith, by simp; linarith⟩
    · rw [if_neg h] at hp
      simp at hp
  | cons q rest ih =>
    intro c hc hsil p hp
    obtain ⟨s, e⟩ := q
    have hq := hsil (s, e) (List.mem_cons_self _ _)
    simp only at hq
    simp only [rawKeep, List.mem_append] at hp
    rcases hp with hp | hp | hp
    · by_cases h : c < s
      · rw [if_pos h] at hp
        simp only [List.mem_singleton] at hp
        subst hp
        exact ⟨by simp; linarith, by simp; linarith [hq.1]⟩
      · rw [if_neg h] at hp
        simp at hp
    · exact keepForSilence_valid lt rr minf htr s e maxf hrr hh0 hh1
        hq.1 hq.2 p hp
    · exact ih e (by linarith [hq.1, hq.2])
        (fun r hr => hsil r (List.mem_cons_of_mem _ hr)) p hp

/-- The merge pass never changes the start of the current range: its output
starts with the current range's start, with an end at least as large. -/
lemma mergeAux_head : ∀ (l : List (ℚ × ℚ)) (cur : ℚ × ℚ),
    ∃ b t, mergeAux cur l = (cur.1, b) :: t ∧ cur.2 ≤ b := by
  intro l
  induction l with
  | nil =>
    intro cur
    exact ⟨cur.2, [], by simp [mergeAux], le_rfl⟩
  | cons q rest ih =>
    intro cur
    simp only [mergeAux]
    by_cases h : q.1 ≤ cur.2 + eps
    · rw [if_pos h]
      obtain ⟨b, t, heq, hb⟩ := ih (cur.1, max cur.2 q.2)
      refine ⟨b, t, ?_, le_trans (le_max_left _ _) hb⟩
      simpa using heq
    · rw [if_neg h]
      exact ⟨cur.2, mergeAux q rest, by simp, le_rfl⟩

/-- Merge-pass invariant: if the current range and all remaining raw ranges
are well-formed with nonnegative ends, the merged output consists of
well-formed ranges with nonnegative ends separated by gaps larger than the
epsilon. -/
lemma mergeAux_spec : ∀ (l : List (ℚ × ℚ)) (cur : ℚ × ℚ),
    cur.1 ≤ cur.2 → 0 ≤ cur.2 →
    (∀ p ∈ l, p.1 ≤ p.2 ∧ 0 ≤ p.2) →
    (∀ p ∈ mergeAux cur l, p.1 ≤ p.2 ∧ 0 ≤ p.2) ∧
    List.Chain' (fun p q : ℚ × ℚ => p.2 + eps < q.1) (mergeAux cur l) := by
  intro l
  induction l with
  | nil =>
    intro cur hc1 hc2 _
    constructor
    · intro p hp
      simp only [mergeAux, List.mem_singleton] at hp
      subst hp
      exact ⟨hc1, hc2⟩
    · simp [mergeAux]
  | cons q rest ih =>
    intro cur hc1 hc2 hl
    have hq := hl q (List.mem_cons_self _ _)
    have hrest : ∀ p ∈ rest, p.1 ≤ p.2 ∧ 0 ≤ p.2 :=
      fun p hp => hl p (List.mem_cons_of_mem _ hp)
    simp only [mergeAux]
    by_cases h : q.1 ≤ cur.2 + eps
    · rw [if_pos h]
      exact ih (cur.1, max cur.2 q.2) (le_trans hc1 (le_max_left _ _))
        (le_trans hc2 (le_max_left _ _)) hrest
    · rw [if_neg h]
      have hrec := ih q hq.1 hq.2 hrest
      constructor
      · intro p hp
        rcases List.mem_cons.mp hp with rfl | hp'
        · exact ⟨hc1, hc2⟩
        · exact hrec.1 p hp'
      · rw [List.chain'_cons']
        refine ⟨?_, hrec.2⟩
        intro z hz
        obtain ⟨b, t, heq, hb⟩ := mergeAux_head rest q
        rw [heq] at hz
        simp only [List.head?_cons, Option.mem_def, Option.some.injEq] at hz
        subst hz
        simpa using not_le.mp h

/-- Clamping the merged output preserves ordering: gaps of more than the
epsilon between well-formed, nonnegative-ended ranges become strict
ordering of both endpoints after the clamp pass. -/
lemma clamp_chain : ∀ (l : List (ℚ × ℚ)),
    (∀ p ∈ l, p.1 ≤ p.2 ∧ 0 ≤ p.2) →
    List.Chain' (fun p q : ℚ × ℚ => p.2 + eps < q.1) l →
    List.Chain' (fun p q : ℚ × ℚ => p.1 < q.1 ∧ p.2 < q.1)
      (l.map clampSeg) := by
  intro l
  induction l with
  | nil => intro _ _; simp
  | cons a t ih =>
    intro hv hc
    rw [List.map_cons]
    cases t with
    | nil => simp
    | cons b t2 =>
      rw [List.map_cons, List.chain'_cons]
      have ha := hv a (List.mem_cons_self _ _)
      have hb := hv b (List.mem_cons_of_mem _ (List.mem_cons_self _ _))
      have hrel : a.2 + eps < b.1 := (List.chain'_cons.mp hc).1
      have hb1 : 0 < b.1 := by linarith [eps_pos, ha.2]
      constructor
      · have h1 : (clampSeg a).2 = a.2 := max_eq_right (max_le ha.2 ha.1)
        have h2 : (clampSeg b).1 = b.1 := max_eq_right hb1.le
        have h3 : (clampSeg a).1 ≤ a.2 := max_le ha.2 ha.1
        refine ⟨?_, ?_⟩
        · rw [h2]
          calc (clampSeg a).1 ≤ a.2 := h3
            _ < b.1 := by linarith [eps_pos]
        · rw [h1, h2]
          linarith [eps_pos]
      · have := ih (fun p hp => hv p (List.mem_cons_of_mem _ hp))
          (List.Chain'.tail hc)
        simpa [List.map_cons] using this

/-- A chain of strictly ordered well-formed ranges is pairwise strictly
ordered. -/
lemma chain_to_pairwise : ∀ (l : List (ℚ × ℚ)),
    (∀ p ∈ l, p.1 ≤ p.2) →
    List.Chain' (fun p q : ℚ × ℚ => p.1 < q.1 ∧ p.2 < q.1) l →
    List.Pairwise (fun p q : ℚ × ℚ => p.1 < q.1 ∧ p.2 < q.1) l := by
  intro l
  induction l with
  | nil => intro _ _; simp
  | cons a t ih =>
    intro hv hc
    have ht := ih (fun p hp => hv p (List.mem_cons_of_mem _ hp))
      (List.Chain'.tail hc)
    refine List.pairwise_cons.mpr ⟨?_, ht⟩
    intro q hq
    cases t with
    | nil => simp at hq
    | cons b t2 =>
      have hab : a.1 < b.1 ∧ a.2 < b.1 := (List.chain'_cons.mp hc).1
      rcases List.mem_cons.mp hq with rfl | hq'
      · exact hab
      · have hbq : b.1 < q.1 ∧ b.2 < q.1 := (List.pairwise_cons.mp ht).1 q hq'
        have hbv : b.1 ≤ b.2 := hv b (List.mem_cons_of_mem _ (List.mem_cons_self _ _))
        exact ⟨by linarith [hab.1, hbq.1], by linarith [hab.2, hbq.1]⟩

/-- C2 amended: for valid, nonnegative, ascending silence lists and policy
parameters in their documented domains (`reduce_ratio > 0`,
`head_tail_ratio ∈ [0,1]`), the returned keep ranges are pairwise
non-overlapping and sorted strictly ascending by start. -/
theorem C2_keep_ranges_sorted_nonoverlapping (total lt rr minf htr : ℚ)
    (maxf : Option ℚ) (sil : List (ℚ × ℚ))
    (hsil : ∀ p ∈ sil, 0 ≤ p.1 ∧ p.1 < p.2)
    (hasc : List.Chain' (fun p q : ℚ × ℚ => p.2 ≤ q.1) sil)
    (hrr : 0 < rr) (hh0 : 0 ≤ htr) (hh1 : htr ≤ 1) :
    List.Pairwise (fun p q : ℚ × ℚ => p.1 < q.1 ∧ p.2 < q.1)
      (build_keep_ranges_gentle total sil lt rr minf maxf htr) := by
  have hraw := raw_valid lt rr minf htr total maxf hrr hh0 hh1 sil 0
    le_rfl hsil
  simp only [build_keep_ranges_gentle]
  rcases hmr : rawKeep lt rr minf maxf htr total 0 sil with _ | ⟨a, t⟩
  · simp [mergeRanges]
  · rw [hmr] at hraw
    have ha := hraw a (List.mem_cons_self _ _)
    have ht : ∀ p ∈ t, p.1 ≤ p.2 ∧ 0 ≤ p.2 :=
      fun p hp => hraw p (List.mem_cons_of_mem _ hp)
    have hms := mergeAux_spec t a ha.1 ha.2 ht
    simp only [mergeRanges]
    apply chain_to_pairwise
    · intro p hp
      rcases List.mem_map.mp hp with ⟨q, _, rfl⟩
      exact le_max_left _ _
    · exact clamp_chain (mergeAux a t) hms.1 hms.2

/-- C2 witness: a concrete valid run (one silence `(1,3)`, defaults) whose
output is pairwise ordered. -/
theorem C2_keep_ranges_sorted_nonoverlapping_witness :
    List.Pairwise (fun p q : ℚ × ℚ => p.1 < q.1 ∧ p.2 < q.1)
      (build_keep_ranges_gentle 10 [(1, 3)] 1 (6/10) (1/2) (some (14/10))
        (1/2)) :=
  C2_keep_ranges_sorted_nonoverlapping 10 1 (6/10) (1/2) (1/2)
    (some (14/10)) [(1, 3)] (by norm_num) (by simp) (by norm_num)
    (by norm_num) (by norm_num)

/-- An element given by `getLast?` is a member of the list. -/
lemma mem_of_getLast_opt {α : Type} {l : List α} {x : α}
    (h : x ∈ l.getLast?) : x ∈ l := by
  obtain ⟨hne, rfl⟩ := List.mem_getLast?_eq_getLast h
  exact List.getLast_mem hne

/-- With `reduce_ratio ≤ 1` and a floor below the silence length, the
resolved final length never exceeds the silence length. -/
lemma final_len_le (rr minf L : ℚ) (maxf : Option ℚ)
    (hrr1 : rr ≤ 1) (hL : 0 ≤ L) (hminf : minf ≤ L) :
    final_len_of rr minf maxf L ≤ L := by
  have hf : max (L * rr) minf ≤ L := by
    refine max_le ?_ hminf
    calc L * rr ≤ L * 1 := mul_le_mul_of_nonneg_left hrr1 hL
      _ = L := mul_one L
  cases maxf with
  | none => simpa [final_len_of] using hf
  | some m =>
    simp only [final_len_of]
    by_cases hm : 0 ≤ m
    · rw [if_pos hm]
      exact le_trans (min_le_left _ _) hf
    · rw [if_neg hm]
      exact hf

/-- Under in-range parameters with `min_final ≤ long_threshold`, every range
emitted for a silence lying inside `[0, total]` has both endpoints at most
`total`. -/
lemma keepForSilence_bounded (lt rr minf htr s e total : ℚ) (maxf : Option ℚ)
    (hrr0 : 0 < rr) (hrr1 : rr ≤ 1) (hh0 : 0 ≤ htr) (hh1 : htr ≤ 1)
    (hminf : minf ≤ lt) (hs : 0 ≤ s) (hse : s < e) (het : e ≤ total) :
    ∀ p ∈ keepForSilence lt rr minf maxf htr s e,
      p.1 ≤ total ∧ p.2 ≤ total := by
  intro p hp
  have hL : max 0 (e - s) = e - s := max_eq_right (by linarith)
  simp only [keepForSilence, hL] at hp
  set fl := final_len_of rr minf maxf (e - s) with hfl
  have hfl0 : 0 ≤ fl :=
    final_len_nonneg rr minf maxf (e - s) hrr0.le (by linarith)
  by_cases hshort : e - s < lt
  · rw [if_pos hshort] at hp
    simp only [List.mem_singleton] at hp
    subst hp
    exact ⟨by simp; linarith, by simp; linarith⟩
  · rw [if_neg hshort] at hp
    have hfle : fl ≤ e - s := by
      rw [hfl]
      exact final_len_le rr minf (e - s) maxf hrr1 (by linarith)
        (by linarith [not_lt.mp hshort])
    by_cases hcol : e - (fl - fl * htr) ≤ s + fl * htr
    · rw [if_pos hcol] at hp
      simp only [List.mem_singleton] at hp
      subst hp
      exact ⟨by simp; linarith, by simp; linarith⟩
    · rw [if_neg hcol] at hp
      have hhk : 0 ≤ fl * htr := mul_nonneg hfl0 hh0
      have htk : fl * htr ≤ fl := by
        calc fl * htr ≤ fl * 1 := mul_le_mul_of_nonneg_left hh1 hfl0
          _ = fl := mul_one fl
      rcases List.mem_cons.mp hp with rfl | hp'
      · exact ⟨by simp; linarith, by simp; linarith⟩
      · simp only [List.mem_singleton] at hp'
        subst hp'
        exact ⟨by simp; linarith, by simp; linarith⟩

/-- Under in-range parameters and silences inside `[0, total]`, every raw
emitted range has both endpoints at most `total`. -/
lemma raw_bounded (lt rr minf htr total : ℚ) (maxf : Option ℚ)
    (hrr0 : 0 < rr) (hrr1 : rr ≤ 1) (hh0 : 0 ≤ htr) (hh1 : htr ≤ 1)
    (hminf : minf ≤ lt) :
    ∀ (sil : List (ℚ × ℚ)) (c : ℚ),
      (∀ p ∈ sil, 0 ≤ p.1 ∧ p.1 < p.2 ∧ p.2 ≤ total) →
      ∀ p ∈ rawKeep lt rr minf maxf htr total c sil,
        p.1 ≤ total ∧ p.2 ≤ total := by
  intro sil
  induction sil with
  | nil =>
    intro c _ p hp
    simp only [rawKeep] at hp
    by_cases h : c < total
    · rw [if_pos h] at hp
      simp only [List.mem_singleton] at hp
      subst hp
      exact ⟨by simp; linarith, by simp⟩
    · rw [if_neg h] at hp
      simp at hp
  | cons q rest ih =>
    intro c hsil p hp
    obtain ⟨s, e⟩ := q
    have hq := hsil (s, e) (List.mem_cons_self _ _)
    simp only at hq
    simp only [rawKeep, List.mem_append] at hp
    rcases hp with hp | hp | hp
    · by_cases h : c < s
      · rw [if_pos h] at hp
        simp only [List.mem_singleton] at hp
        subst hp
        exact ⟨by simp; linarith [hq.2.1, hq.2.2], by simp; linarith [hq.2.1, hq.2.2]⟩
      · rw [if_neg h] at hp
        simp at hp
    · exact keepForSilence_bounded lt rr minf htr s e total maxf hrr0 hrr1
        hh0 hh1 hminf hq.1 hq.2.1 hq.2.2 p hp
    · exact ih e (fun r hr => hsil r (List.mem_cons_of_mem _ hr)) p hp

/-- The merge pass preserves an upper bound on both endpoints. -/
lemma mergeAux_bounded : ∀ (l : List (ℚ × ℚ)) (cur : ℚ × ℚ) (total : ℚ),
    cur.1 ≤ total → cur.2 ≤ total →
    (∀ p ∈ l, p.1 ≤ total ∧ p.2 ≤ total) →
    ∀ p ∈ mergeAux cur l, p.1 ≤ total ∧ p.2 ≤ total := by
  intro l
  induction l with
  | nil =>
    intro cur total hc1 hc2 _ p hp
    simp only [mergeAux, List.mem_singleton] at hp
    subst hp
    exact ⟨hc1, hc2⟩
  | cons q rest ih =>
    intro cur total hc1 hc2 hl p hp
    have hq := hl q (List.mem_cons_self _ _)
    have hrest : ∀ r ∈ rest, r.1 ≤ total ∧ r.2 ≤ total :=
      fun r hr => hl r (List.mem_cons_of_mem _ hr)
    simp only [mergeAux] at hp
    by_cases h : q.1 ≤ cur.2 + eps
    · rw [if_pos h] at hp
      exact ih (cur.1, max cur.2 q.2) total hc1 (max_le hc2 hq.2) hrest p hp
    · rw [if_neg h] at hp
      rcases List.mem_cons.mp hp with rfl | hp'
      · exact ⟨hc1, hc2⟩
      · exact ih q total hq.1 hq.2 hrest p hp'

/-- C3 amended: every returned keep range `[a, b]` satisfies `0 ≤ a`
unconditionally; and when `0 ≤ total`, every silence lies inside
`[0, total]` and the policy parameters are in their documented domains
(`0 < reduce_ratio ≤ 1`, `head_tail_ratio ∈ [0,1]`,
`min_final ≤ long_threshold`), also `b ≤ total`, so the union of the keep
ranges is contained in `[0, total]`. -/
theorem C3_keep_ranges_within_duration (total lt rr minf htr : ℚ)
    (maxf : Option ℚ) (sil : List (ℚ × ℚ)) (htot : 0 ≤ total)
    (hsil : ∀ p ∈ sil, 0 ≤ p.1 ∧ p.1 < p.2 ∧ p.2 ≤ total)
    (hrr0 : 0 < rr) (hrr1 : rr ≤ 1) (hh0 : 0 ≤ htr) (hh1 : htr ≤ 1)
    (hminf : minf ≤ lt) :
    ∀ p ∈ build_keep_ranges_gentle total sil lt rr minf maxf htr,
      0 ≤ p.1 ∧ p.2 ≤ total := by
  intro p hp
  simp only [build_keep_ranges_gentle] at hp
  rcases List.mem_map.mp hp with ⟨q, hq, rfl⟩
  refine ⟨le_max_left 0 q.1, ?_⟩
  have hraw := raw_bounded lt rr minf htr total maxf hrr0 hrr1 hh0 hh1
    hminf sil 0 hsil
  rcases hmr : rawKeep lt rr minf maxf htr total 0 sil with _ | ⟨a, t⟩
  · rw [hmr] at hq
    simp [mergeRanges] at hq
  · rw [hmr] at hq hraw
    simp only [mergeRanges] at hq
    have ha := hraw a (List.mem_cons_self _ _)
    have hb := mergeAux_bounded t a total ha.1 ha.2
      (fun r hr => hraw r (List.mem_cons_of_mem _ hr)) q hq
    exact max_le (max_le htot hb.1) hb.2

/-- C3 witness: on the worked example the first returned range
`(0, 2.7)` starts at `0 ≥ 0` and ends at `2.7 ≤ 10`. -/
theorem C3_keep_ranges_within_duration_witness :
    0 ≤ (((0 : ℚ), (27/10 : ℚ))).1 ∧ (((0 : ℚ), (27/10 : ℚ))).2 ≤ 10 :=
  C3_keep_ranges_within_duration 10 1 (6/10) (1/2) (1/2) (some (14/10))
    [(2, 5)] (by norm_num) (by norm_num) (by norm_num) (by norm_num)
    (by norm_num) (by norm_num) (by norm_num) ((0 : ℚ), (27/10 : ℚ))
    (by norm_num [build_keep_ranges_gentle, rawKeep, keepForSilence,
      final_len_of, mergeRanges, mergeAux, clampSeg, eps, max_def, min_def])

/-- A chain of non-overlapping valid silences is pairwise non-overlapping. -/
lemma sil_chain_pairwise : ∀ (sil : List (ℚ × ℚ)),
    (∀ p ∈ sil, p.1 < p.2) →
    List.Chain' (fun p q : ℚ × ℚ => p.2 ≤ q.1) sil →
    List.Pairwise (fun p q : ℚ × ℚ => p.2 ≤ q.1) sil := by
  intro sil
  induction sil with
  | nil => intro _ _; simp
  | cons a t ih =>
    intro hv hc
    have ht := ih (fun p hp => hv p (List.mem_cons_of_mem _ hp))
      (List.Chain'.tail hc)
    refine List.pairwise_cons.mpr ⟨?_, ht⟩
    intro q hq
    cases t with
    | nil => simp at hq
    | cons b t2 =>
      have hab : a.2 ≤ b.1 := (List.chain'_cons.mp hc).1
      rcases List.mem_cons.mp hq with rfl | hq'
      · exact hab
      · have hbq : b.2 ≤ q.1 := (List.pairwise_cons.mp ht).1 q hq'
        have hbv : b.1 < b.2 :=
          hv b (List.mem_cons_of_mem _ (List.mem_cons_self _ _))
        linarith

/-- Under in-range parameters, the ranges emitted for one valid silence have
ascending starts, all lying between the silence start and end, and the
emission is never empty. -/
lemma keepForSilence_starts (lt rr minf htr s e : ℚ) (maxf : Option ℚ)
    (hrr0 : 0 < rr) (hrr1 : rr ≤ 1) (hh0 : 0 ≤ htr) (hh1 : htr ≤ 1)
    (hminf : minf ≤ lt) (hs : 0 ≤ s) (hse : s < e) :
    List.Chain' (fun p q : ℚ × ℚ => p.1 ≤ q.1)
      (keepForSilence lt rr minf maxf htr s e) ∧
    (∀ p ∈ keepForSilence lt rr minf maxf htr s e, s ≤ p.1 ∧ p.1 ≤ e) ∧
    keepForSilence lt rr minf maxf htr s e ≠ [] := by
  have hL : max 0 (e - s) = e - s := max_eq_right (by linarith)
  simp only [keepForSilence, hL]
  set fl := final_len_of rr minf maxf (e - s) with hfl
  have hfl0 : 0 ≤ fl :=
    final_len_nonneg rr minf maxf (e - s) hrr0.le (by linarith)
  by_cases hshort : e - s < lt
  · rw [if_pos hshort]
    refine ⟨List.chain'_singleton _, ?_, by simp⟩
    intro p hp
    simp only [List.mem_singleton] at hp
    subst hp
    exact ⟨le_rfl, hse.le⟩
  · rw [if_neg hshort]
    have hfle : fl ≤ e - s := by
      rw [hfl]
      exact final_len_le rr minf (e - s) maxf hrr1 (by linarith)
        (by linarith [not_lt.mp hshort])
    have hhk : 0 ≤ fl * htr := mul_nonneg hfl0 hh0
    have htk : fl * htr ≤ fl := by
      calc fl * htr ≤ fl * 1 := mul_le_mul_of_nonneg_left hh1 hfl0
        _ = fl := mul_one fl
    by_cases hcol : e - (fl - fl * htr) ≤ s + fl * htr
    · rw [if_pos hcol]
      refine ⟨List.chain'_singleton _, ?_, by simp⟩
      intro p hp
      simp only [List.mem_singleton] at hp
      subst hp
      constructor
      · show s ≤ s + ((e - s) - fl) / 2
        linarith
      · show s + ((e - s) - fl) / 2 ≤ e
        linarith
    · rw [if_neg hcol]
      have hts : s ≤ e - (fl - fl * htr) := by linarith
      refine ⟨?_, ?_, by simp⟩
      · rw [List.chain'_cons]
        exact ⟨hts, List.chain'_singleton _⟩
      · intro p hp
        rcases List.mem_cons.mp hp with rfl | hp'
        · exact ⟨le_rfl, hse.le⟩
        · simp only [List.mem_singleton] at hp'
          subst hp'
          refine ⟨hts, ?_⟩
          show e - (fl - fl * htr) ≤ e
          linarith

/-- Under in-range parameters and valid, nonnegative, ascending silences,
the raw emitted ranges have ascending starts, all at or after the cursor. -/
lemma raw_sorted (lt rr minf htr total : ℚ) (maxf : Option ℚ)
    (hrr0 : 0 < rr) (hrr1 : rr ≤ 1) (hh0 : 0 ≤ htr) (hh1 : htr ≤ 1)
    (hminf : minf ≤ lt) :
    ∀ (sil : List (ℚ × ℚ)) (c : ℚ),
      (∀ p ∈ sil, 0 ≤ p.1 ∧ p.1 < p.2) →
      List.Chain' (fun p q : ℚ × ℚ => p.2 ≤ q.1) sil →
      (∀ p ∈ sil, c ≤ p.1) →
      List.Chain' (fun p q : ℚ × ℚ => p.1 ≤ q.1)
        (rawKeep lt rr minf maxf htr total c sil) ∧
      (∀ p ∈ rawKeep lt rr minf maxf htr total c sil, c ≤ p.1) := by
  intro sil
  induction sil with
  | nil =>
    intro c _ _ _
    constructor
    · simp only [rawKeep]
      by_cases h : c < total
      · rw [if_pos h]
        exact List.chain'_singleton _
      · rw [if_neg h]
        exact List.chain'_nil
    · intro p hp
      simp only [rawKeep] at hp
      by_cases h : c < total
      · rw [if_pos h] at hp
        simp only [List.mem_singleton] at hp
        subst hp
        exact le_rfl
      · rw [if_neg h] at hp
        simp at hp
  | cons q rest ih =>
    intro c hv hchain hlb
    obtain ⟨s, e⟩ := q
    have hq := hv (s, e) (List.mem_cons_self _ _)
    simp only at hq
    have hcs : c ≤ s := hlb (s, e) (List.mem_cons_self _ _)
    have hrest_lb : ∀ p ∈ rest, e ≤ p.1 := by
      have hpw := sil_chain_pairwise ((s, e) :: rest)
        (fun p hp => (hv p hp).2) hchain
      exact fun p hp => (List.pairwise_cons.mp hpw).1 p hp
    have hrec := ih e (fun p hp => hv p (List.mem_cons_of_mem _ hp))
      (List.Chain'.tail hchain) hrest_lb
    have hks := keepForSilence_starts lt rr minf htr s e maxf hrr0 hrr1 hh0
      hh1 hminf hq.1 hq.2
    constructor
    · simp only [rawKeep]
      rw [List.chain'_append]
      refine ⟨?_, ?_, ?_⟩
      · by_cases h : c < s
        · rw [if_pos h]
          exact List.chain'_singleton _
        · rw [if_neg h]
          exact List.chain'_nil
      · rw [List.chain'_append]
        refine ⟨hks.1, hrec.1, ?_⟩
        intro x hx y hy
        have hxe : x.1 ≤ e := (hks.2.1 x (mem_of_getLast_opt hx)).2
        have hey : e ≤ y.1 := hrec.2 y (List.mem_of_mem_head? hy)
        exact le_trans hxe hey
      · intro x hx y hy
        by_cases h : c < s
        · rw [if_pos h] at hx
          simp only [List.getLast?_singleton, Option.mem_def,
            Option.some.injEq] at hx
          subst hx
          have hy' := List.mem_of_mem_head? hy
          rcases List.mem_append.mp hy' with hh | hh
          · exact le_trans hcs (hks.2.1 y hh).1
          · have := hrec.2 y hh
            show c ≤ y.1
            linarith [hq.2]
        · rw [if_neg h] at hx
          simp at hx
    · intro p hp
      simp only [rawKeep, List.mem_append] at hp
      rcases hp with hp | hp | hp
      · by_cases h : c < s
        · rw [if_pos h] at hp
          simp only [List.mem_singleton] at hp
          subst hp
          exact le_rfl
        · rw [if_neg h] at hp
          simp at hp
      · exact le_trans hcs (hks.2.1 p hp).1
      · have := hrec.2 p hp
        linarith [hq.2]

/-- Merge-pass coverage: a target interval covered by the current range or
present in the remaining list is covered by some merged output range,
provided the starts are ascending. -/
lemma mergeAux_cover : ∀ (l : List (ℚ × ℚ)) (cur : ℚ × ℚ) (u v : ℚ),
    ((cur.1 ≤ u ∧ v ≤ cur.2) ∨ (u, v) ∈ l) →
    List.Chain' (fun p q : ℚ × ℚ => p.1 ≤ q.1) (cur :: l) →
    ∃ p ∈ mergeAux cur l, p.1 ≤ u ∧ v ≤ p.2 := by
  intro l
  induction l with
  | nil =>
    intro cur u v hcov _
    rcases hcov with hcov | hmem
    · exact ⟨cur, by simp [mergeAux], hcov⟩
    · simp at hmem
  | cons b rest ih =>
    intro cur u v hcov hchain
    have hcb : cur.1 ≤ b.1 := (List.chain'_cons.mp hchain).1
    have hcbr := (List.chain'_cons.mp hchain).2
    simp only [mergeAux]
    by_cases h : b.1 ≤ cur.2 + eps
    · rw [if_pos h]
      apply ih (cur.1, max cur.2 b.2) u v
      · rcases hcov with hcov | hmem
        · exact Or.inl ⟨hcov.1, le_trans hcov.2 (le_max_left _ _)⟩
        · rcases List.mem_cons.mp hmem with heq | hmem'
          · refine Or.inl ⟨?_, ?_⟩
            · rw [← heq] at hcb
              exact hcb
            · show v ≤ max cur.2 b.2
              rw [← heq]
              exact le_max_right _ _
          · exact Or.inr hmem'
      · rw [List.chain'_cons']
        refine ⟨?_, List.Chain'.tail hcbr⟩
        intro y hy
        have h2 : b.1 ≤ y.1 := by
          rw [List.chain'_cons'] at hcbr
          exact hcbr.1 y hy
        exact le_trans hcb h2
    · rw [if_neg h]
      rcases hcov with hcov | hmem
      · exact ⟨cur, List.mem_cons_self _ _, hcov⟩
      · rcases List.mem_cons.mp hmem with heq | hmem'
        · obtain ⟨p, hp, hpc⟩ := ih b u v
            (Or.inl (by rw [← heq]; exact ⟨le_rfl, le_rfl⟩)) hcbr
          exact ⟨p, List.mem_cons_of_mem _ hp, hpc⟩
        · obtain ⟨p, hp, hpc⟩ := ih b u v (Or.inr hmem') hcbr
          exact ⟨p, List.mem_cons_of_mem _ hp, hpc⟩

/-- A short silence is emitted verbatim into the raw keep list. -/
lemma raw_mem_short (lt rr minf htr total : ℚ) (maxf : Option ℚ) :
    ∀ (sil : List (ℚ × ℚ)) (c s e : ℚ), (s, e) ∈ sil →
      max 0 (e - s) < lt →
      (s, e) ∈ rawKeep lt rr minf maxf htr total c sil := by
  intro sil
  induction sil with
  | nil =>
    intro c s e hmem _
    simp at hmem
  | cons q rest ih =>
    intro c s e hmem hshort
    obtain ⟨s1, e1⟩ := q
    simp only [rawKeep, List.mem_append]
    rcases List.mem_cons.mp hmem with heq | hmem'
    · injection heq with h1 h2
      subst h1
      subst h2
      refine Or.inr (Or.inl ?_)
      simp only [keepForSilence]
      rw [if_pos hshort]
      simp
    · exact Or.inr (Or.inr (ih e1 s e hmem' hshort))

/-- C6 corrected: a silence `(s, e)` with `e - s < long_threshold` is
emitted verbatim into the pre-merge keep list; in the final returned list
(for valid, nonnegative, ascending silences and in-range parameters) its
span `[s, e]` is contained in some returned keep range — the merge pass may
have absorbed it into a larger range. -/
theorem C6_short_silence_kept (total lt rr minf htr : ℚ) (maxf : Option ℚ)
    (sil : List (ℚ × ℚ)) (s e : ℚ)
    (hsil : ∀ p ∈ sil, 0 ≤ p.1 ∧ p.1 < p.2)
    (hasc : List.Chain' (fun p q : ℚ × ℚ => p.2 ≤ q.1) sil)
    (hrr0 : 0 < rr) (hrr1 : rr ≤ 1) (hh0 : 0 ≤ htr) (hh1 : htr ≤ 1)
    (hminf : minf ≤ lt)
    (hmem : (s, e) ∈ sil) (hshort : e - s < lt) :
    (s, e) ∈ rawKeep lt rr minf maxf htr total 0 sil ∧
    ∃ p ∈ build_keep_ranges_gentle total sil lt rr minf maxf htr,
      p.1 ≤ s ∧ e ≤ p.2 := by
  have hq := hsil (s, e) hmem
  simp only at hq
  have hshort' : max 0 (e - s) < lt := by
    rw [max_eq_right (by linarith : (0:ℚ) ≤ e - s)]
    exact hshort
  have hmem_raw := raw_mem_short lt rr minf htr total maxf sil 0 s e hmem
    hshort'
  refine ⟨hmem_raw, ?_⟩
  have hsorted := raw_sorted lt rr minf htr total maxf hrr0 hrr1 hh0 hh1
    hminf sil 0 hsil hasc (fun p hp => (hsil p hp).1)
  simp only [build_keep_ranges_gentle]
  rcases hmr : rawKeep lt rr minf maxf htr total 0 sil with _ | ⟨a, t⟩
  · rw [hmr] at hmem_raw
    simp at hmem_raw
  · rw [hmr] at hmem_raw hsorted
    have hcov : (a.1 ≤ s ∧ e ≤ a.2) ∨ (s, e) ∈ t := by
      rcases List.mem_cons.mp hmem_raw with heq | hmem'
      · left
        rw [← heq]
        exact ⟨le_rfl, le_rfl⟩
      · right
        exact hmem'
    obtain ⟨p, hp, hpc⟩ := mergeAux_cover t a s e hcov hsorted.1
    refine ⟨clampSeg p, ?_, ?_, ?_⟩
    · simp only [mergeRanges]
      exact List.mem_map_of_mem clampSeg hp
    · exact max_le hq.1 hpc.1
    · exact le_trans hpc.2 (le_max_right _ _)

/-- C6 witness: the short silence `(2, 2.5)` appears verbatim in the
pre-merge keep list of the counterexample run. -/
theorem C6_short_silence_kept_witness :
    ((2 : ℚ), (5/2 : ℚ)) ∈
      rawKeep 1 (6/10) (1/2) (some (14/10)) (1/2) 10 0 [(2, 5/2)] :=
  (C6_short_silence_kept 10 1 (6/10) (1/2) (1/2) (some (14/10)) [(2, 5/2)]
    2 (5/2) (by norm_num) (by simp) (by norm_num) (by norm_num)
    (by norm_num) (by norm_num) (by norm_num) (by simp) (by norm_num)).1
